import Mathlib

/-!
Verification of the bmpr single-header bitmap library (src/bmpr.hpp).

The library is embedded shallowly: the pixel buffer (`Image`) is a record of
its two dimensions and the flat row-major color store; every operation of the
source is a Lean function on that record, translated loop-for-loop from the
C++ (for-loops become folds over their iteration ranges, the two stateful
Bresenham/midpoint loops become fuel-indexed recursions whose fuel provably
covers the iteration count).  Machine integers are modelled as `Int`/`Nat`;
the only byte-level arithmetic (the BMP encoder) truncates explicitly.
-/

namespace Bmpr

/-- 8-bit RGB color (`Color` in src/bmpr.hpp): three byte channels, modelled
as naturals; every library operation keeps them in 0..255. -/
structure Color where
  r : Nat
  g : Nat
  b : Nat
  deriving DecidableEq, Repr

/-- `Color::BLACK` = {0}: the single-channel constructor sets all channels. -/
def Color.BLACK : Color := ⟨0, 0, 0⟩

/-- `Color::WHITE` = {255}. -/
def Color.WHITE : Color := ⟨255, 255, 255⟩

/-- `Color::RED` = {255, 0, 0}. -/
def Color.RED : Color := ⟨255, 0, 0⟩

instance : Inhabited Color := ⟨Color.BLACK⟩

/-- `Vector2` (src/bmpr.hpp:30): two signed 32-bit coordinates, used as the
parameters of the bezier operation. -/
structure Vector2 where
  x : Int
  y : Int
  deriving DecidableEq, Repr

/-- The pixel buffer (`Image` in src/bmpr.hpp): fixed dimensions `m_width`,
`m_height` and the flat row-major store `m_data` (pixel (x,y) lives at linear
index y*width + x). -/
structure Image where
  width : Nat
  height : Nat
  data : List Color
  deriving DecidableEq, Repr

/-- `Image::Image(width, height)`: allocates width*height colors, all
default-initialized to (0,0,0). -/
def Image.ofSize (w h : Nat) : Image :=
  ⟨w, h, List.replicate (w * h) Color.BLACK⟩

/-- Total read of entry `i` of a color store, defaulting to black; the source
indexes its vector only in bounds, the default merely makes the model total. -/
def lget (l : List Color) (i : Nat) : Color := (l[i]?).getD Color.BLACK

theorem lget_set_eq {l : List Color} {i : Nat} (h : i < l.length) (a : Color) :
    lget (l.set i a) i = a := by
  simp [lget, List.getElem?_set_self h]

theorem lget_set_ne {l : List Color} {i j : Nat} (h : i ≠ j) (a : Color) :
    lget (l.set i a) j = lget l j := by
  simp [lget, List.getElem?_set_ne h]

/-- The bounds test of `Image::SetSafe` (src/bmpr.hpp:160):
x >= 0 && x < m_width && y >= 0 && y < m_height. -/
def Image.inBounds (img : Image) (x y : Int) : Prop :=
  0 ≤ x ∧ x < (img.width : Int) ∧ 0 ≤ y ∧ y < (img.height : Int)

instance (img : Image) (x y : Int) : Decidable (img.inBounds x y) :=
  inferInstanceAs (Decidable (0 ≤ x ∧ x < (img.width : Int) ∧ 0 ≤ y ∧ y < (img.height : Int)))

/-- `Image::Set` (src/bmpr.hpp:153): unchecked write
m_data[size_t(y)*m_width + x] = color.  Out of bounds the source is undefined
(raw vector indexing); the model writes through `List.set`, which then no-ops. -/
def Image.Set (img : Image) (x y : Int) (c : Color) : Image :=
  { img with data := img.data.set (y.toNat * img.width + x.toNat) c }

/-- `Image::SetSafe` (src/bmpr.hpp:158): write only when the coordinate is in
bounds, otherwise silently do nothing. -/
def Image.SetSafe (img : Image) (x y : Int) (c : Color) : Image :=
  if img.inBounds x y then
    { img with data := img.data.set (y.toNat * img.width + x.toNat) c }
  else img

/-- Reading pixel (x,y): the source exposes no getter, but both `Image::Set`
and `Image::Save` address pixel (x,y) at m_data[size_t(y)*m_width + x]; this
observation function performs exactly that read, guarded so it is total. -/
def Image.get (img : Image) (x y : Int) : Color :=
  if img.inBounds x y then lget img.data (y.toNat * img.width + x.toNat)
  else Color.BLACK

/-- `Image::Clear` (src/bmpr.hpp:336): std::fill of the whole store. -/
def Image.Clear (img : Image) (c : Color) : Image :=
  { img with data := img.data.map (fun _ => c) }

theorem length_Set (img : Image) (x y : Int) (c : Color) :
    (img.Set x y c).data.length = img.data.length := by
  simp [Image.Set]

theorem length_SetSafe (img : Image) (x y : Int) (c : Color) :
    (img.SetSafe x y c).data.length = img.data.length := by
  unfold Image.SetSafe
  split <;> simp

theorem dims_SetSafe (img : Image) (x y : Int) (c : Color) :
    (img.SetSafe x y c).width = img.width ∧ (img.SetSafe x y c).height = img.height := by
  unfold Image.SetSafe
  split <;> simp

theorem width_SetSafe (img : Image) (x y : Int) (c : Color) :
    (img.SetSafe x y c).width = img.width := (dims_SetSafe img x y c).1

theorem height_SetSafe (img : Image) (x y : Int) (c : Color) :
    (img.SetSafe x y c).height = img.height := (dims_SetSafe img x y c).2

/-- Row-major linear indices of distinct in-row coordinates are ordered. -/
theorem index_lt {w x yy b : Nat} (hx : x < w) (hyb : yy < b) :
    yy * w + x < b * w := by
  calc yy * w + x < yy * w + w := by omega
    _ = (yy + 1) * w := by ring
    _ ≤ b * w := Nat.mul_le_mul_right w hyb

/-- Injectivity of the row-major index map on in-bounds coordinates. -/
theorem index_inj {w x a yy b : Nat} (hx : x < w) (ha : a < w)
    (h : yy * w + x = b * w + a) : x = a ∧ yy = b := by
  rcases Nat.lt_trichotomy yy b with hlt | heq | hgt
  · have h2 := index_lt hx hlt
    omega
  · subst heq
    omega
  · have h2 := index_lt ha hgt
    omega

/-- In-bounds coordinates index inside a store of exactly width*height
entries. -/
theorem index_bound {w h x yy : Nat} (hx : x < w) (hy : yy < h) :
    yy * w + x < w * h := by
  calc yy * w + x < yy * w + w := by omega
    _ = (yy + 1) * w := by ring
    _ ≤ h * w := Nat.mul_le_mul_right w hy
    _ = w * h := Nat.mul_comm h w

/-- Reading a buffer whose store was replaced: the bounds test only looks at
the dimensions. -/
theorem get_data (img : Image) (d : List Color) (x y : Int) :
    Image.get { img with data := d } x y =
      if img.inBounds x y then lget d (y.toNat * img.width + x.toNat)
      else Color.BLACK := rfl

/-- Full behavior of `Image::SetSafe` as observed through `get`: the written
pixel reads back as the written color, any other read is unchanged. -/
theorem get_SetSafe (img : Image) (hlen : img.data.length = img.width * img.height)
    (x y a b : Int) (c : Color) :
    (img.SetSafe x y c).get a b =
      if a = x ∧ b = y ∧ img.inBounds a b then c else img.get a b := by
  by_cases hxy : img.inBounds x y
  · have hset : img.SetSafe x y c =
        { img with data := img.data.set (y.toNat * img.width + x.toNat) c } := by
      unfold Image.SetSafe; rw [if_pos hxy]
    rw [hset, get_data]
    by_cases hab : img.inBounds a b
    · rw [if_pos hab]
      by_cases heq : a = x ∧ b = y
      · obtain ⟨ha, hb⟩ := heq
        subst ha; subst hb
        rw [if_pos ⟨rfl, rfl, hab⟩]
        obtain ⟨hx0, hxw, hy0, hyh⟩ := hab
        have hidx : b.toNat * img.width + a.toNat < img.data.length := by
          rw [hlen]
          exact index_bound (by omega) (by omega)
        exact lget_set_eq hidx c
      · rw [if_neg (by tauto)]
        obtain ⟨ha0, haw, hb0, hbh⟩ := id hab
        obtain ⟨hx0, hxw, hy0, hyh⟩ := id hxy
        have hne : y.toNat * img.width + x.toNat ≠ b.toNat * img.width + a.toNat := by
          intro hcontra
          have := index_inj (w := img.width) (by omega) (by omega) hcontra
          apply heq
          omega
        unfold Image.get
        rw [if_pos hab]
        exact lget_set_ne hne c
    · rw [if_neg hab, if_neg (by tauto)]
      unfold Image.get
      rw [if_neg hab]
  · have hset : img.SetSafe x y c = img := by
      unfold Image.SetSafe; rw [if_neg hxy]
    rw [hset, if_neg (by rintro ⟨rfl, rfl, hmem⟩; exact hxy hmem)]

/-- The iteration values of a C++ loop `for (i = 0; i < n; ++i)` over an
int bound n: the integers 0, 1, ..., n-1, empty for n ≤ 0. -/
def natRangeInt (n : Int) : List Int :=
  (List.range n.toNat).map (fun (i : Nat) => (i : Int))

/-- The iteration values of a C++ loop `for (v = lo; v <= hi; ++v)`. -/
def intRange (lo hi : Int) : List Int :=
  (List.range (hi + 1 - lo).toNat).map (fun (i : Nat) => lo + (i : Int))

/-- Plot a sequence of points through `SetSafe`, in order, all with one
color: the shape shared by every for-loop rasterizer of the source. -/
def plotAll (img : Image) (c : Color) (pts : List (Int × Int)) : Image :=
  pts.foldl (fun im p => im.SetSafe p.1 p.2 c) img

/-- The Bresenham loop of `Image::DrawLine` (src/bmpr.hpp:179-197): while
(x,y) differs from (x2,y2), plot (x,y), compute error2 = 2·error once, then
step x (if error2 > -delta_y) and y (if error2 < delta_x).  The fuel counts
iterations; `DrawLine` supplies delta_x + delta_y, which theorem
`DrawLine_reaches_endpoint` (claim C3) proves is never exhausted. -/
def lineAux (c : Color) (x2 y2 dx dy sx sy : Int) :
    Nat → Int → Int → Int → Image → Image × Int × Int
  | 0, x, y, _, img => (img, x, y)
  | fuel + 1, x, y, err, img =>
    if x = x2 ∧ y = y2 then (img, x, y)
    else
      let img' := img.SetSafe x y c
      let e2 := err * 2
      let err1 := if e2 > -dy then err - dy else err
      let x' := if e2 > -dy then x + sx else x
      let err' := if e2 < dx then err1 + dx else err1
      let y' := if e2 < dx then y + sy else y
      lineAux c x2 y2 dx dy sx sy fuel x' y' err' img'

/-- `Image::DrawLine` (src/bmpr.hpp:167) together with the final loop
position: delta_x = |x2-x1|, delta_y = |y2-y1|, sign_x = 1 iff x1 < x2 else
-1, sign_y likewise, initial error delta_x - delta_y. -/
def Image.DrawLineFull (img : Image) (x1 y1 x2 y2 : Int) (c : Color) :
    Image × Int × Int :=
  let dx := |x2 - x1|
  let dy := |y2 - y1|
  let sx : Int := if x1 < x2 then 1 else -1
  let sy : Int := if y1 < y2 then 1 else -1
  lineAux c x2 y2 dx dy sx sy (dx + dy).toNat x1 y1 (dx - dy) img

/-- `Image::DrawLine` (src/bmpr.hpp:167): the buffer after the loop. -/
def Image.DrawLine (img : Image) (x1 y1 x2 y2 : Int) (c : Color) : Image :=
  (img.DrawLineFull x1 y1 x2 y2 c).1

/-- The stepping loop of the thick `Image::DrawLine` overload
(src/bmpr.hpp:216-240): identical stepping, but each visited point plots a
t×t block offset by -t/2 on both axes. -/
def thickLineAux (c : Color) (t x2 y2 dx dy sx sy : Int) :
    Nat → Int → Int → Int → Image → Image
  | 0, _, _, _, img => img
  | fuel + 1, x, y, err, img =>
    if x = x2 ∧ y = y2 then img
    else
      let img' := plotAll img c ((natRangeInt t).flatMap fun i =>
        (natRangeInt t).map fun j => (x + i - t.tdiv 2, y + j - t.tdiv 2))
      let e2 := err * 2
      let err1 := if e2 > -dy then err - dy else err
      let x' := if e2 > -dy then x + sx else x
      let err' := if e2 < dx then err1 + dx else err1
      let y' := if e2 < dx then y + sy else y
      thickLineAux c t x2 y2 dx dy sx sy fuel x' y' err' img'

/-- The thick `Image::DrawLine` overload (src/bmpr.hpp:200): thickness is
clamped up to 1 first. -/
def Image.DrawLineThick (img : Image) (x1 y1 x2 y2 : Int) (thickness : Int)
    (c : Color) : Image :=
  let t := if thickness < 1 then 1 else thickness
  let dx := |x2 - x1|
  let dy := |y2 - y1|
  let sx : Int := if x1 < x2 then 1 else -1
  let sy : Int := if y1 < y2 then 1 else -1
  thickLineAux c t x2 y2 dx dy sx sy (dx + dy).toNat x1 y1 (dx - dy) img

/-- The truncation `static_cast<int>(x)` applied to each float bezier
sample: toward zero.  For NaN or values outside the int range the source is
undefined behavior; the model then yields 0 resp. a saturated value. -/
def floatToInt (x : Float) : Int :=
  if x < 0 then -(Int.ofNat (-x).toUInt64.toNat) else Int.ofNat x.toUInt64.toNat

/-- The per-axis float bezier polynomial both overloads evaluate
(src/bmpr.hpp:249-250 and 262-263):
pow(1-t,2)·start + 2·t·(1-t)·control + pow(t,2)·end, each coordinate then
truncated like static_cast<int>. -/
def bezierPoint (start control last : Vector2) (t : Float) : Int × Int :=
  let fx := Float.pow (1 - t) 2 * Float.ofInt start.x +
    2 * t * (1 - t) * Float.ofInt control.x + Float.pow t 2 * Float.ofInt last.x
  let fy := Float.pow (1 - t) 2 * Float.ofInt start.y +
    2 * t * (1 - t) * Float.ofInt control.y + Float.pow t 2 * Float.ofInt last.y
  (floatToInt fx, floatToInt fy)

/-- `Image::DrawQuadraticBezierCurve`, fixed point count overload
(src/bmpr.hpp:243): for i = 0..num_points inclusive, t = i/num_points in
float, plot the truncated bezier sample through SetSafe. -/
def Image.DrawQuadraticBezierCurve (img : Image) (start control last : Vector2)
    (num_points : Int) (c : Color) : Image :=
  (intRange 0 num_points).foldl (fun im i =>
    let t : Float := Float.ofInt i / Float.ofInt num_points
    let p := bezierPoint start control last t
    im.SetSafe p.1 p.2 c) img

/-- The while loop of the step-size overload (src/bmpr.hpp:258-269): while
t ≤ 1.0, plot the truncated bezier sample and advance t by step_size.  The
C++ loop diverges whenever t stops growing (step_size ≤ 0, or a positive
float step below the rounding granularity of t), so no closed iteration
bound exists: the model takes the permitted iteration count as fuel, each
fueled step mirroring one source iteration exactly. -/
def bezierStepAux (start control last : Vector2) (step_size : Float)
    (c : Color) : Nat → Float → Image → Image
  | 0, _, img => img
  | fuel + 1, t, img =>
    if t ≤ 1.0 then
      let p := bezierPoint start control last t
      bezierStepAux start control last step_size c fuel (t + step_size)
        (img.SetSafe p.1 p.2 c)
    else img

/-- `Image::DrawQuadraticBezierCurve`, step-size overload (src/bmpr.hpp:256):
t starts at 0.0. -/
def Image.DrawQuadraticBezierCurveStep (img : Image)
    (start control last : Vector2) (step_size : Float) (fuel : Nat)
    (c : Color) : Image :=
  bezierStepAux start control last step_size c fuel 0.0 img

/-- `Image::DrawCircle` (src/bmpr.hpp:273): scan the square [-r,r]×[-r,r]
(outer loop y1, inner loop x1) and plot every offset strictly inside the
widened disk x1² + y1² < r² + r. -/
def Image.DrawCircle (img : Image) (x y r : Int) (c : Color) : Image :=
  plotAll img c <| (intRange (-r) r).flatMap fun y1 =>
    ((intRange (-r) r).filter fun x1 =>
      decide (x1 * x1 + y1 * y1 < r * r + r)).map fun x1 => (x + x1, y + y1)

/-- First conjunct of the `Image::DrawCircleInverted` guard
(src/bmpr.hpp:310): the offset lies on or outside the widened disk.  In the
source this conjunct short-circuits the division-based second conjunct. -/
def invOutside (r x1 y1 : Int) : Bool := decide (r * r + r ≤ x1 * x1 + y1 * y1)

/-- Second conjunct of the guard: x1/x1 + y1/y1 <= r*r - r with C++
truncating division (`Int.tdiv`).  At x1 = 0 or y1 = 0 the C++ division is
undefined; tdiv makes the model total there (claim C8 shows the source never
evaluates those cases for r ≥ 1). -/
def invDivTest (r x1 y1 : Int) : Bool :=
  decide (x1.tdiv x1 + y1.tdiv y1 ≤ r * r - r)

/-- `Image::DrawCircleInverted` (src/bmpr.hpp:306). -/
def Image.DrawCircleInverted (img : Image) (x y r : Int) (c : Color) : Image :=
  plotAll img c <| (intRange (-r) r).flatMap fun y1 =>
    ((intRange (-r) r).filter fun x1 =>
      invOutside r x1 y1 && invDivTest r x1 y1).map fun x1 => (x + x1, y + y1)

/-- The midpoint loop of `Image::DrawCircleLine` (src/bmpr.hpp:287-303):
while center_x ≤ center_y, plot the eight octant points, then update the
decision variable with the pre-increment values (d += 4·center_x + 6, or
d += 4·(center_x - center_y) + 10 with center_y also decremented). -/
def circleLineAux (c : Color) (x y : Int) :
    Nat → Int → Int → Int → Image → Image
  | 0, _, _, _, img => img
  | fuel + 1, cx, cy, d, img =>
    if cx ≤ cy then
      let img' := plotAll img c
        [(x + cx, y + cy), (x - cx, y + cy), (x + cx, y - cy), (x - cx, y - cy),
         (x + cy, y + cx), (x - cy, y + cx), (x + cy, y - cx), (x - cy, y - cx)]
      if d < 0 then circleLineAux c x y fuel (cx + 1) cy (d + 4 * cx + 6) img'
      else circleLineAux c x y fuel (cx + 1) (cy - 1) (d + 4 * (cx - cy) + 10) img'
    else img

/-- `Image::DrawCircleLine` (src/bmpr.hpp:281): center_x starts at 0 and is
incremented on every iteration while center_x ≤ center_y ≤ r, so r+1 units of
fuel cover every iteration the C++ loop can perform. -/
def Image.DrawCircleLine (img : Image) (x y r : Int) (c : Color) : Image :=
  circleLineAux c x y (r.toNat + 1) 0 r (3 - 2 * r) img

/-- `Image::DrawRectangle` (src/bmpr.hpp:314): plot (x+i, y+j) for 0 ≤ i < w
(outer loop), 0 ≤ j < h (inner loop). -/
def Image.DrawRectangle (img : Image) (x y w h : Int) (c : Color) : Image :=
  plotAll img c <| (natRangeInt w).flatMap fun i =>
    (natRangeInt h).map fun j => (x + i, y + j)

/-- `Image::DrawRectangleLine` (src/bmpr.hpp:321): the two horizontal edges
(right corner column excluded), then the two vertical edges (bottom corner
row excluded), then the single corner (x+w, y+h). -/
def Image.DrawRectangleLine (img : Image) (x y w h : Int) (c : Color) : Image :=
  plotAll img c <|
    ((natRangeInt w).flatMap fun i => [(x + i, y), (x + i, y + h)]) ++
    ((natRangeInt h).flatMap fun j => [(x, y + j), (x + w, y + j)]) ++
    [(x + w, y + h)]

/-- std::swap of two entries of the store: two reads, two writes. -/
def swapData (l : List Color) (i j : Nat) : List Color :=
  (l.set i (lget l j)).set j (lget l i)

/-- `Image::FlipHorizontally` (src/bmpr.hpp:398): for every row y, swap
columns x and width-1-x for x < width/2. -/
def Image.FlipHorizontally (img : Image) : Image :=
  let w := img.width
  let rowStep := fun (d : List Color) (y : Nat) =>
    (List.range (w / 2)).foldl
      (fun d2 x => swapData d2 (y * w + x) (y * w + (w - 1 - x))) d
  { img with data := (List.range img.height).foldl rowStep img.data }

/-- `Image::FlipVertically` (src/bmpr.hpp:411): swap rows y and height-1-y
elementwise for y < height/2. -/
def Image.FlipVertically (img : Image) : Image :=
  let w := img.width
  let h := img.height
  let rowStep := fun (d : List Color) (y : Nat) =>
    (List.range w).foldl
      (fun d2 x => swapData d2 (y * w + x) ((h - 1 - y) * w + x)) d
  { img with data := (List.range (h / 2)).foldl rowStep img.data }

/-- `Image::Rotate180` (src/bmpr.hpp:393): std::reverse of the whole store. -/
def Image.Rotate180 (img : Image) : Image :=
  { img with data := img.data.reverse }

/-- Channel-wise complement of one color: c becomes 255 - c per channel
(uint8 arithmetic never wraps since channels stay at most 255). -/
def invertColor (c : Color) : Color := ⟨255 - c.r, 255 - c.g, 255 - c.b⟩

/-- `Image::Invert` (src/bmpr.hpp:424): for i < width·height, replace
m_data[i] by its channel-wise complement. -/
def Image.Invert (img : Image) : Image :=
  let step := fun (d : List Color) (i : Nat) => d.set i (invertColor (lget d i))
  { img with data := (List.range (img.width * img.height)).foldl step img.data }

/-- Little-endian byte layout of a 16-bit field. -/
def le16 (n : Nat) : List Nat := [n % 256, n / 256 % 256]

/-- Little-endian byte layout of a 32-bit field. -/
def le32 (n : Nat) : List Nat :=
  [n % 256, n / 256 % 256, n / 2 ^ 16 % 256, n / 2 ^ 24 % 256]

/-- The packed BMP `Header` of src/bmpr.hpp:10 (pragma pack(1), so the fields
occupy 2+4+4+4+4+4+4+2+2+4+4+4+4+4+4 = 54 consecutive bytes). -/
structure Header where
  signature : Nat
  file_size : Nat
  reserved : Nat
  data_offset : Nat
  info_header_size : Nat
  width : Nat
  height : Nat
  planes : Nat
  bit_depth : Nat
  compression : Nat
  img_size : Nat
  xpix_per_m : Nat
  ypix_per_m : Nat
  colors_used : Nat
  colors_important : Nat

/-- sizeof(Header) under pragma pack(1). -/
def headerSize : Nat := 54

/-- The bytes ofs.write(reinterpret_cast(&header), sizeof(header)) emits:
every field little-endian at its packed offset. -/
def Header.serialize (h : Header) : List Nat :=
  le16 h.signature ++ le32 h.file_size ++ le32 h.reserved ++ le32 h.data_offset ++
  le32 h.info_header_size ++ le32 h.width ++ le32 h.height ++ le16 h.planes ++
  le16 h.bit_depth ++ le32 h.compression ++ le32 h.img_size ++ le32 h.xpix_per_m ++
  le32 h.ypix_per_m ++ le32 h.colors_used ++ le32 h.colors_important

/-- The header `Image::Save` builds (src/bmpr.hpp:347-364): row_size =
width·3 + width%4, bmp_size = row_size·height. -/
def Image.saveHeader (img : Image) : Header :=
  let row_size := img.width * 3 + img.width % 4
  let bmp_size := row_size * img.height
  ⟨0x4d42, bmp_size + headerSize, 0, headerSize, 40, img.width, img.height,
   1, 24, 0, bmp_size, 0, 0, 0, 0⟩

/-- One output row of `Image::Save` (src/bmpr.hpp:370-385): the row buffer
`line` holds row_size zero-initialized bytes; the x loop overwrites its first
3·width bytes with (b,g,r) of row y's pixels and the remaining width%4 bytes
stay zero. -/
def Image.saveRow (img : Image) (y : Nat) : List Nat :=
  ((List.range img.width).flatMap fun x =>
    let col := lget img.data (y * img.width + x)
    [col.b, col.g, col.r]) ++ List.replicate (img.width % 4) 0

/-- The byte stream the success path of `Image::Save` hands to the sink: the
54 header bytes, then the rows for y = height-1 down to 0. -/
def Image.encodeBytes (img : Image) : List Nat :=
  img.saveHeader.serialize ++
  ((List.range img.height).reverse.flatMap fun y => img.saveRow y)

/-- Modelled from the spec: the output byte sink of `Image::Save` (spec §4.3
and §7).  Opening the sink may fail; writes after a successful open may also
fail (the stream records this in its state).  The source tests only the open
(`if (std::ofstream ofs{path, std::ios_base::binary})`) and never inspects
the stream state after its ofs.write calls. -/
structure Sink where
  canOpen : Bool
  writesSucceed : Bool

/-- `Image::Save` (src/bmpr.hpp:345): if the sink opens, write the header and
all rows and return true — without consulting the write status; otherwise
return false.  The member fields are only read.  Result: the buffer after
the call, the return value, and the bytes handed to the sink. -/
def Image.Save (img : Image) (s : Sink) : Image × Bool × List Nat :=
  if s.canOpen then (img, true, img.encodeBytes) else (img, false, [])

/-!  Claim C8: the short-circuit guard of DrawCircleInverted protects the
division-based conjunct. -/

/-- C8: for r ≥ 1 and every offset (x1,y1) of the scanned square
[-r,r]×[-r,r], if the first (short-circuiting) conjunct `invOutside` of the
DrawCircleInverted guard holds, then both x1 and y1 are nonzero, so the
divisions x1/x1 and y1/y1 of the second conjunct are never division by
zero. -/
theorem DrawCircleInverted_no_div_by_zero (r x1 y1 : Int)
    (hr : 1 ≤ r) (hx1 : -r ≤ x1) (hx2 : x1 ≤ r) (hy1 : -r ≤ y1) (hy2 : y1 ≤ r)
    (hguard : invOutside r x1 y1 = true) : x1 ≠ 0 ∧ y1 ≠ 0 := by
  rw [invOutside, decide_eq_true_eq] at hguard
  constructor
  · rintro rfl
    have hmul : (0:ℤ) ≤ (r - y1) * (r + y1) := mul_nonneg (by omega) (by omega)
    nlinarith [hmul, hguard, hr]
  · rintro rfl
    have hmul : (0:ℤ) ≤ (r - x1) * (r + x1) := mul_nonneg (by omega) (by omega)
    nlinarith [hmul, hguard, hr]

/-- Witness for C8 at r = 1, (x1,y1) = (1,1), where the guard holds. -/
theorem DrawCircleInverted_no_div_by_zero_witness :
    (1:Int) ≠ 0 ∧ (1:Int) ≠ 0 :=
  DrawCircleInverted_no_div_by_zero 1 1 1 (by decide) (by decide) (by decide)
    (by decide) (by decide) (by decide)

/-!  Claim C10: a negative radius makes every circle routine a no-op. -/

theorem intRange_nil {lo hi : Int} (h : hi < lo) : intRange lo hi = [] := by
  unfold intRange
  have h0 : (hi + 1 - lo).toNat = 0 := by omega
  rw [h0]
  rfl

/-- C10: for r < 0 the scan loops of DrawCircle and DrawCircleInverted are
empty and the midpoint loop of DrawCircleLine exits at once (center_x = 0 ≤
center_y = r fails), so all three circle routines leave the buffer
unchanged. -/
theorem negative_radius_circles_noop (img : Image) (x y r : Int) (c : Color)
    (hr : r < 0) :
    img.DrawCircle x y r c = img ∧ img.DrawCircleLine x y r c = img ∧
      img.DrawCircleInverted x y r c = img := by
  have hrange : intRange (-r) r = [] := intRange_nil (by omega)
  refine ⟨?_, ?_, ?_⟩
  · unfold Image.DrawCircle
    rw [hrange]
    rfl
  · unfold Image.DrawCircleLine
    have h0 : r.toNat = 0 := by omega
    rw [h0]
    simp only [circleLineAux, if_neg (show ¬((0:Int) ≤ r) by omega)]
  · unfold Image.DrawCircleInverted
    rw [hrange]
    rfl

/-- Witness for C10 at r = -1 on a 2×2 buffer. -/
theorem negative_radius_circles_noop_witness :
    (Image.ofSize 2 2).DrawCircle 0 0 (-1) Color.RED = Image.ofSize 2 2 ∧
      (Image.ofSize 2 2).DrawCircleLine 0 0 (-1) Color.RED = Image.ofSize 2 2 ∧
      (Image.ofSize 2 2).DrawCircleInverted 0 0 (-1) Color.RED = Image.ofSize 2 2 :=
  negative_radius_circles_noop (Image.ofSize 2 2) 0 0 (-1) Color.RED (by decide)

/-!  Claim C7: what Save's return value reports, and that Save never touches
the buffer. -/

/-- The claim's reading of the Save contract: failure exactly when the sink
cannot be opened or written, i.e. success requires the open and all writes
to succeed. -/
def specSaveOk (s : Sink) : Bool := s.canOpen && s.writesSucceed

/-- Counterexample to C7 as stated: a sink that opens but whose writes fail
(e.g. the disk fills after the open).  The source returns true — it checks
only `if (std::ofstream ofs{...})` and never the stream state after its
writes — while the claim demands failure. -/
theorem Save_reports_write_failure_counterexample :
    ¬ (((Image.ofSize 1 1).Save ⟨true, false⟩).2.1 =
        specSaveOk ⟨true, false⟩) := by decide

/-- C7 amended: Save returns failure exactly when the sink cannot be opened
(write failures after a successful open go unreported), and in every case
the in-memory buffer — pixel data, width and height — is unchanged. -/
theorem Save_result_and_no_corruption (img : Image) (s : Sink) :
    (img.Save s).1 = img ∧ (img.Save s).2.1 = s.canOpen := by
  rcases s with ⟨co, ws⟩
  cases co <;> simp [Image.Save]

/-!  Claim C9: no operation ever changes the dimensions or the store size. -/

/-- Two buffers agreeing in width, height and store size. -/
def sameDims (a b : Image) : Prop :=
  a.width = b.width ∧ a.height = b.height ∧ a.data.length = b.data.length

theorem sameDims_refl (a : Image) : sameDims a a := ⟨rfl, rfl, rfl⟩

theorem sameDims_trans {a b c : Image} (h1 : sameDims a b) (h2 : sameDims b c) :
    sameDims a c :=
  ⟨h1.1.trans h2.1, h1.2.1.trans h2.2.1, h1.2.2.trans h2.2.2⟩

theorem sameDims_data (img : Image) {d : List Color}
    (h : d.length = img.data.length) : sameDims { img with data := d } img :=
  ⟨rfl, rfl, h⟩

theorem sameDims_Set (img : Image) (x y : Int) (c : Color) :
    sameDims (img.Set x y c) img :=
  sameDims_data img (List.length_set _ _ _)

theorem sameDims_SetSafe (img : Image) (x y : Int) (c : Color) :
    sameDims (img.SetSafe x y c) img := by
  unfold Image.SetSafe
  split
  · exact sameDims_data img (List.length_set _ _ _)
  · exact sameDims_refl img

theorem sameDims_Clear (img : Image) (c : Color) :
    sameDims (img.Clear c) img :=
  sameDims_data img (List.length_map _ _)

theorem sameDims_plotAll (c : Color) :
    ∀ (pts : List (Int × Int)) (img : Image), sameDims (plotAll img c pts) img := by
  intro pts
  induction pts with
  | nil => intro img; exact sameDims_refl img
  | cons p ps ih =>
    intro img
    exact sameDims_trans (ih (img.SetSafe p.1 p.2 c)) (sameDims_SetSafe img p.1 p.2 c)

theorem sameDims_lineAux (c : Color) (x2 y2 dx dy sx sy : Int) :
    ∀ (fuel : Nat) (x y err : Int) (img : Image),
      sameDims (lineAux c x2 y2 dx dy sx sy fuel x y err img).1 img := by
  intro fuel
  induction fuel with
  | zero => intro x y err img; exact sameDims_refl img
  | succ n ih =>
    intro x y err img
    by_cases hxy : x = x2 ∧ y = y2
    · simp only [lineAux, if_pos hxy]
      exact sameDims_refl img
    · simp only [lineAux, if_neg hxy]
      exact sameDims_trans (ih _ _ _ _) (sameDims_SetSafe img x y c)

theorem sameDims_thickLineAux (c : Color) (t x2 y2 dx dy sx sy : Int) :
    ∀ (fuel : Nat) (x y err : Int) (img : Image),
      sameDims (thickLineAux c t x2 y2 dx dy sx sy fuel x y err img) img := by
  intro fuel
  induction fuel with
  | zero => intro x y err img; exact sameDims_refl img
  | succ n ih =>
    intro x y err img
    by_cases hxy : x = x2 ∧ y = y2
    · simp only [thickLineAux, if_pos hxy]
      exact sameDims_refl img
    · simp only [thickLineAux, if_neg hxy]
      exact sameDims_trans (ih _ _ _ _) (sameDims_plotAll c _ img)

theorem sameDims_circleLineAux (c : Color) (x y : Int) :
    ∀ (fuel : Nat) (cx cy d : Int) (img : Image),
      sameDims (circleLineAux c x y fuel cx cy d img) img := by
  intro fuel
  induction fuel with
  | zero => intro cx cy d img; exact sameDims_refl img
  | succ n ih =>
    intro cx cy d img
    by_cases hc : cx ≤ cy
    · simp only [circleLineAux, if_pos hc]
      by_cases hd : d < 0
      · rw [if_pos hd]
        exact sameDims_trans (ih _ _ _ _) (sameDims_plotAll c _ img)
      · rw [if_neg hd]
        exact sameDims_trans (ih _ _ _ _) (sameDims_plotAll c _ img)
    · simp only [circleLineAux, if_neg hc]
      exact sameDims_refl img

theorem sameDims_foldl {β : Type} (step : Image → β → Image)
    (hstep : ∀ (im : Image) (b : β), sameDims (step im b) im) :
    ∀ (l : List β) (img : Image), sameDims (List.foldl step img l) img := by
  intro l
  induction l with
  | nil => intro img; exact sameDims_refl img
  | cons b bs ih =>
    intro img
    exact sameDims_trans (ih (step img b)) (hstep img b)

theorem sameDims_DrawQuadraticBezierCurve (img : Image)
    (start control last : Vector2) (num_points : Int) (c : Color) :
    sameDims (img.DrawQuadraticBezierCurve start control last num_points c)
      img := by
  unfold Image.DrawQuadraticBezierCurve
  exact sameDims_foldl _ (fun im i => sameDims_SetSafe im _ _ c) _ img

theorem sameDims_bezierStepAux (start control last : Vector2)
    (step_size : Float) (c : Color) :
    ∀ (fuel : Nat) (t : Float) (img : Image),
      sameDims (bezierStepAux start control last step_size c fuel t img) img := by
  intro fuel
  induction fuel with
  | zero => intro t img; exact sameDims_refl img
  | succ n ih =>
    intro t img
    by_cases hc : t ≤ 1.0
    · simp only [bezierStepAux, if_pos hc]
      exact sameDims_trans (ih _ _) (sameDims_SetSafe img _ _ c)
    · simp only [bezierStepAux, if_neg hc]
      exact sameDims_refl img

theorem sameDims_DrawQuadraticBezierCurveStep (img : Image)
    (start control last : Vector2) (step_size : Float) (fuel : Nat)
    (c : Color) :
    sameDims (img.DrawQuadraticBezierCurveStep start control last step_size
      fuel c) img :=
  sameDims_bezierStepAux start control last step_size c fuel 0.0 img

theorem foldl_length_invariant {β : Type} (step : List Color → β → List Color)
    (hstep : ∀ (d : List Color) (b : β), (step d b).length = d.length) :
    ∀ (l : List β) (d : List Color), (List.foldl step d l).length = d.length := by
  intro l
  induction l with
  | nil => intro d; rfl
  | cons b bs ih =>
    intro d
    rw [List.foldl_cons, ih (step d b), hstep d b]

theorem length_swapData (l : List Color) (i j : Nat) :
    (swapData l i j).length = l.length := by
  simp [swapData]

theorem sameDims_FlipHorizontally (img : Image) :
    sameDims img.FlipHorizontally img := by
  refine sameDims_data img ?_
  exact foldl_length_invariant _
    (fun d y => foldl_length_invariant _ (fun d2 x => length_swapData _ _ _) _ d) _ _

theorem sameDims_FlipVertically (img : Image) :
    sameDims img.FlipVertically img := by
  refine sameDims_data img ?_
  exact foldl_length_invariant _
    (fun d y => foldl_length_invariant _ (fun d2 x => length_swapData _ _ _) _ d) _ _

theorem sameDims_Rotate180 (img : Image) : sameDims img.Rotate180 img :=
  sameDims_data img (List.length_reverse _)

theorem sameDims_Invert (img : Image) : sameDims img.Invert img := by
  refine sameDims_data img ?_
  exact foldl_length_invariant _ (fun d i => List.length_set _ _ _) _ _

/-- C9: the constructor establishes — and every public operation on a buffer
preserves — the invariant that width and height keep their construction-time
values and the store holds exactly width·height entries; the buffer is never
resized. -/
theorem operations_preserve_dimensions :
    (∀ w h : Nat, (Image.ofSize w h).width = w ∧ (Image.ofSize w h).height = h ∧
      (Image.ofSize w h).data.length = w * h) ∧
    (∀ (img : Image) (x y : Int) (c : Color), sameDims (img.Set x y c) img) ∧
    (∀ (img : Image) (x y : Int) (c : Color), sameDims (img.SetSafe x y c) img) ∧
    (∀ (img : Image) (c : Color), sameDims (img.Clear c) img) ∧
    (∀ (img : Image) (x1 y1 x2 y2 : Int) (c : Color),
      sameDims (img.DrawLine x1 y1 x2 y2 c) img) ∧
    (∀ (img : Image) (x1 y1 x2 y2 t : Int) (c : Color),
      sameDims (img.DrawLineThick x1 y1 x2 y2 t c) img) ∧
    (∀ (img : Image) (start control last : Vector2) (num_points : Int)
      (c : Color),
      sameDims (img.DrawQuadraticBezierCurve start control last num_points c)
        img) ∧
    (∀ (img : Image) (start control last : Vector2) (step_size : Float)
      (fuel : Nat) (c : Color),
      sameDims (img.DrawQuadraticBezierCurveStep start control last step_size
        fuel c) img) ∧
    (∀ (img : Image) (x y r : Int) (c : Color),
      sameDims (img.DrawCircle x y r c) img) ∧
    (∀ (img : Image) (x y r : Int) (c : Color),
      sameDims (img.DrawCircleLine x y r c) img) ∧
    (∀ (img : Image) (x y r : Int) (c : Color),
      sameDims (img.DrawCircleInverted x y r c) img) ∧
    (∀ (img : Image) (x y w h : Int) (c : Color),
      sameDims (img.DrawRectangle x y w h c) img) ∧
    (∀ (img : Image) (x y w h : Int) (c : Color),
      sameDims (img.DrawRectangleLine x y w h c) img) ∧
    (∀ img : Image, sameDims img.FlipHorizontally img) ∧
    (∀ img : Image, sameDims img.FlipVertically img) ∧
    (∀ img : Image, sameDims img.Rotate180 img) ∧
    (∀ img : Image, sameDims img.Invert img) ∧
    (∀ (img : Image) (s : Sink), (img.Save s).1 = img) := by
  refine ⟨?_, sameDims_Set, sameDims_SetSafe, sameDims_Clear, ?_, ?_,
    sameDims_DrawQuadraticBezierCurve, sameDims_DrawQuadraticBezierCurveStep,
    ?_, ?_, ?_, ?_, ?_, sameDims_FlipHorizontally, sameDims_FlipVertically,
    sameDims_Rotate180, sameDims_Invert, ?_⟩
  · intro w h
    refine ⟨rfl, rfl, ?_⟩
    simp [Image.ofSize]
  · intro img x1 y1 x2 y2 c
    exact sameDims_lineAux c x2 y2 _ _ _ _ _ _ _ _ img
  · intro img x1 y1 x2 y2 t c
    exact sameDims_thickLineAux c _ x2 y2 _ _ _ _ _ _ _ _ img
  · intro img x y r c
    exact sameDims_plotAll c _ img
  · intro img x y r c
    exact sameDims_circleLineAux c x y _ _ _ _ img
  · intro img x y r c
    exact sameDims_plotAll c _ img
  · intro img x y w h c
    exact sameDims_plotAll c _ img
  · intro img x y w h c
    exact sameDims_plotAll c _ img
  · intro img s
    exact (Save_result_and_no_corruption img s).1

/-!  Claims C2 and C4: observational behavior of SetSafe and of the
Bresenham loop at its endpoint. -/

/-- A SetSafe at (x,y) changes no read at any other coordinate (no store
size assumption needed). -/
theorem get_SetSafe_ne (img : Image) (x y a b : Int) (c : Color)
    (h : ¬(a = x ∧ b = y)) : (img.SetSafe x y c).get a b = img.get a b := by
  by_cases hxy : img.inBounds x y
  · have hset : img.SetSafe x y c =
        { img with data := img.data.set (y.toNat * img.width + x.toNat) c } := by
      unfold Image.SetSafe; rw [if_pos hxy]
    rw [hset, get_data]
    by_cases hab : img.inBounds a b
    · rw [if_pos hab]
      obtain ⟨ha0, haw, hb0, hbh⟩ := id hab
      obtain ⟨hx0, hxw, hy0, hyh⟩ := id hxy
      have hne : y.toNat * img.width + x.toNat ≠ b.toNat * img.width + a.toNat := by
        intro hcontra
        have h2 := index_inj (w := img.width) (by omega) (by omega) hcontra
        exact h (by omega)
      unfold Image.get
      rw [if_pos hab]
      exact lget_set_ne hne c
    · unfold Image.get
      rw [if_neg hab, if_neg hab]
  · unfold Image.SetSafe
    rw [if_neg hxy]

/-- The Bresenham loop plots only at states (x,y) ≠ (x2,y2), so the read at
(x2,y2) is unchanged by the whole loop. -/
theorem get_lineAux_endpoint (c : Color) (x2 y2 dx dy sx sy : Int) :
    ∀ (fuel : Nat) (x y err : Int) (img : Image),
      ((lineAux c x2 y2 dx dy sx sy fuel x y err img).1).get x2 y2 =
        img.get x2 y2 := by
  intro fuel
  induction fuel with
  | zero => intro x y err img; rfl
  | succ n ih =>
    intro x y err img
    by_cases hxy : x = x2 ∧ y = y2
    · simp only [lineAux, if_pos hxy]
    · simp only [lineAux, if_neg hxy]
      rw [ih]
      exact get_SetSafe_ne img x y x2 y2 c (fun hcon => hxy ⟨hcon.1.symm, hcon.2.symm⟩)

/-- C2: DrawLine never plots its endpoint: the loop plots only while (x,y)
differs from (x2,y2), so the pixel at (x2,y2) keeps its previous color; in
particular DrawLine(0,0,5,0,RED) on a cleared 8×1 buffer colors exactly
(0,0)..(4,0) and leaves (5,0) at the background color. -/
theorem DrawLine_never_plots_endpoint :
    (∀ (img : Image) (x1 y1 x2 y2 : Int) (c : Color),
      (img.DrawLine x1 y1 x2 y2 c).get x2 y2 = img.get x2 y2) ∧
    (Image.ofSize 8 1).DrawLine 0 0 5 0 Color.RED =
      ⟨8, 1, [Color.RED, Color.RED, Color.RED, Color.RED, Color.RED,
              Color.BLACK, Color.BLACK, Color.BLACK]⟩ := by
  constructor
  · intro img x1 y1 x2 y2 c
    exact get_lineAux_endpoint c x2 y2 _ _ _ _ _ _ _ _ img
  · decide

/-- C4: SetSafe on a valid coordinate writes exactly that pixel (a read
there returns the written color, every other read is unchanged) and on an
out-of-range coordinate leaves the entire buffer unchanged. -/
theorem SetSafe_bounded_write (img : Image) (x y : Int) (c : Color)
    (hlen : img.data.length = img.width * img.height) :
    (img.inBounds x y →
      (img.SetSafe x y c).get x y = c ∧
      ∀ a b : Int, ¬(a = x ∧ b = y) → (img.SetSafe x y c).get a b = img.get a b) ∧
    (¬ img.inBounds x y → img.SetSafe x y c = img) := by
  constructor
  · intro hin
    constructor
    · rw [get_SetSafe img hlen, if_pos ⟨rfl, rfl, hin⟩]
    · intro a b hne
      exact get_SetSafe_ne img x y a b c hne
  · intro hout
    unfold Image.SetSafe
    rw [if_neg hout]

/-- Witness for C4 on a 2×2 buffer: an in-bounds write at (1,0) read back,
an untouched read at (0,1), and an out-of-range no-op at (5,0). -/
theorem SetSafe_bounded_write_witness :
    ((Image.ofSize 2 2).SetSafe 1 0 Color.RED).get 1 0 = Color.RED ∧
    ((Image.ofSize 2 2).SetSafe 1 0 Color.RED).get 0 1 =
      (Image.ofSize 2 2).get 0 1 ∧
    (Image.ofSize 2 2).SetSafe 5 0 Color.RED = Image.ofSize 2 2 := by
  refine ⟨?_, ?_, ?_⟩
  · exact ((SetSafe_bounded_write (Image.ofSize 2 2) 1 0 Color.RED
      (by decide)).1 (by decide)).1
  · exact ((SetSafe_bounded_write (Image.ofSize 2 2) 1 0 Color.RED
      (by decide)).1 (by decide)).2 0 1 (by decide)
  · exact (SetSafe_bounded_write (Image.ofSize 2 2) 5 0 Color.RED
      (by decide)).2 (by decide)

/-- Reading after plotting a point list: a read at a plotted, in-bounds
coordinate returns the plot color, any other read is unchanged. -/
theorem get_plotAll (c : Color) :
    ∀ (pts : List (Int × Int)) (img : Image),
      img.data.length = img.width * img.height → ∀ (a b : Int),
      (plotAll img c pts).get a b =
        if (a, b) ∈ pts ∧ img.inBounds a b then c else img.get a b := by
  intro pts
  induction pts with
  | nil =>
    intro img hlen a b
    simp [plotAll]
  | cons p ps ih =>
    intro img hlen a b
    have hstep : plotAll img c (p :: ps) = plotAll (img.SetSafe p.1 p.2 c) c ps := rfl
    have hlen' : (img.SetSafe p.1 p.2 c).data.length =
        (img.SetSafe p.1 p.2 c).width * (img.SetSafe p.1 p.2 c).height := by
      obtain ⟨hw, hh, hl⟩ := sameDims_SetSafe img p.1 p.2 c
      rw [hw, hh, hl, hlen]
    have hin : ∀ u v : Int,
        (img.SetSafe p.1 p.2 c).inBounds u v ↔ img.inBounds u v := by
      intro u v
      unfold Image.SetSafe
      split <;> exact Iff.rfl
    rw [hstep, ih _ hlen']
    by_cases hmem : (a, b) ∈ ps ∧ img.inBounds a b
    · rw [if_pos ⟨hmem.1, (hin a b).mpr hmem.2⟩,
        if_pos ⟨List.mem_cons_of_mem p hmem.1, hmem.2⟩]
    · rw [if_neg (fun hcon => hmem ⟨hcon.1, (hin a b).mp hcon.2⟩),
        get_SetSafe img hlen]
      by_cases hp : a = p.1 ∧ b = p.2 ∧ img.inBounds a b
      · have hab : (a, b) = p := by
          obtain ⟨h1, h2, _⟩ := hp
          rw [h1, h2]
        have hmemc : (a, b) ∈ p :: ps := by
          rw [hab]
          exact List.mem_cons_self p ps
        rw [if_pos hp, if_pos ⟨hmemc, hp.2.2⟩]
      · rw [if_neg hp]
        rw [if_neg (fun hcon => ?_)]
        rcases List.mem_cons.mp hcon.1 with heq | hmem2
        · exact hp ⟨congrArg Prod.fst heq, congrArg Prod.snd heq, hcon.2⟩
        · exact hmem ⟨hmem2, hcon.2⟩

/-!  Claim C6: the rectangle outline is inclusive of its far row and column,
the filled rectangle is exclusive. -/

theorem mem_natRangeInt {n i : Int} : i ∈ natRangeInt n ↔ 0 ≤ i ∧ i < n := by
  simp only [natRangeInt, List.mem_map, List.mem_range]
  constructor
  · rintro ⟨m, hm, rfl⟩
    omega
  · intro hi
    exact ⟨i.toNat, by omega, by omega⟩

/-- The set of pixels claim C6 says DrawRectangleOutline plots: the rows y
and y+h for x ≤ a ≤ x+w, and the columns x and x+w for y ≤ b ≤ y+h, all
bounds inclusive. -/
def onOutline (x y w h a b : Int) : Prop :=
  ((b = y ∨ b = y + h) ∧ x ≤ a ∧ a ≤ x + w) ∨
  ((a = x ∨ a = x + w) ∧ y ≤ b ∧ b ≤ y + h)

instance (x y w h a b : Int) : Decidable (onOutline x y w h a b) :=
  inferInstanceAs (Decidable (((b = y ∨ b = y + h) ∧ x ≤ a ∧ a ≤ x + w) ∨
    ((a = x ∨ a = x + w) ∧ y ≤ b ∧ b ≤ y + h)))

/-- The set of pixels claim C6 says DrawRectangleFilled plots: the block
with exclusive far bounds, x ≤ a < x+w and y ≤ b < y+h. -/
def inFilledRect (x y w h a b : Int) : Prop :=
  x ≤ a ∧ a < x + w ∧ y ≤ b ∧ b < y + h

instance (x y w h a b : Int) : Decidable (inFilledRect x y w h a b) :=
  inferInstanceAs (Decidable (x ≤ a ∧ a < x + w ∧ y ≤ b ∧ b < y + h))

theorem mem_rectOutline {x y w h a b : Int} (hw : 0 ≤ w) (hh : 0 ≤ h) :
    ((a, b) ∈ ((natRangeInt w).flatMap fun i => [(x + i, y), (x + i, y + h)]) ++
      ((natRangeInt h).flatMap fun j => [(x, y + j), (x + w, y + j)]) ++
      [(x + w, y + h)]) ↔ onOutline x y w h a b := by
  simp only [List.mem_append, List.mem_flatMap, List.mem_cons, List.not_mem_nil,
    or_false, Prod.mk.injEq, mem_natRangeInt]
  unfold onOutline
  constructor
  · intro hcase
    rcases hcase with (⟨i, hi, hpt⟩ | ⟨j, hj, hpt⟩) | hpt <;> omega
  · intro hon
    rcases hon with ⟨hb, hxa, hax⟩ | ⟨ha, hyb, hby⟩
    · by_cases haw : a < x + w
      · refine Or.inl (Or.inl ⟨a - x, ⟨by omega, by omega⟩, ?_⟩)
        rcases hb with rfl | rfl
        · exact Or.inl ⟨by omega, rfl⟩
        · exact Or.inr ⟨by omega, rfl⟩
      · rcases hb with rfl | rfl
        · by_cases hh0 : 0 < h
          · exact Or.inl (Or.inr ⟨0, ⟨le_refl 0, hh0⟩, Or.inr ⟨by omega, by omega⟩⟩)
          · exact Or.inr ⟨by omega, by omega⟩
        · exact Or.inr ⟨by omega, rfl⟩
    · by_cases hbh : b < y + h
      · refine Or.inl (Or.inr ⟨b - y, ⟨by omega, by omega⟩, ?_⟩)
        rcases ha with rfl | rfl
        · exact Or.inl ⟨rfl, by omega⟩
        · exact Or.inr ⟨by omega, by omega⟩
      · rcases ha with rfl | rfl
        · by_cases hw0 : 0 < w
          · exact Or.inl (Or.inl ⟨0, ⟨le_refl 0, hw0⟩, Or.inr ⟨by omega, by omega⟩⟩)
          · exact Or.inr ⟨by omega, by omega⟩
        · exact Or.inr ⟨rfl, by omega⟩

theorem mem_rectFilled {x y w h a b : Int} :
    ((a, b) ∈ (natRangeInt w).flatMap fun i =>
      (natRangeInt h).map fun j => (x + i, y + j)) ↔ inFilledRect x y w h a b := by
  simp only [List.mem_flatMap, List.mem_map, mem_natRangeInt, Prod.mk.injEq]
  unfold inFilledRect
  constructor
  · rintro ⟨i, hi, j, hj, hij⟩
    omega
  · intro hf
    exact ⟨a - x, ⟨by omega, by omega⟩, b - y, ⟨by omega, by omega⟩, by omega, by omega⟩

/-- C6: for w, h ≥ 0, DrawRectangleLine plots exactly the union of the
border lines with inclusive far bounds — a read at a border coordinate
(in bounds) returns the color, any other read is unchanged — while
DrawRectangle plots exactly the block with exclusive far bounds. -/
theorem DrawRectangle_outline_vs_filled (img : Image) (x y w h : Int)
    (c : Color) (hlen : img.data.length = img.width * img.height)
    (hw : 0 ≤ w) (hh : 0 ≤ h) (a b : Int) :
    (img.DrawRectangleLine x y w h c).get a b =
      (if onOutline x y w h a b ∧ img.inBounds a b then c else img.get a b) ∧
    (img.DrawRectangle x y w h c).get a b =
      (if inFilledRect x y w h a b ∧ img.inBounds a b then c
       else img.get a b) := by
  constructor
  · unfold Image.DrawRectangleLine
    rw [get_plotAll c _ img hlen a b]
    simp only [mem_rectOutline hw hh]
  · unfold Image.DrawRectangle
    rw [get_plotAll c _ img hlen a b]
    simp only [mem_rectFilled]

/-!  Claim C3: the Bresenham loop always terminates, exactly at (x2,y2).
The invariant: writing rx = sx·(x2-x) and ry = sy·(y2-y) for the remaining
distances, the loop keeps 0 ≤ rx ≤ delta_x, 0 ≤ ry ≤ delta_y and
error = (1 + delta_y - ry)·delta_x - (1 + delta_x - rx)·delta_y, and every
iteration decreases rx + ry by at least one without overshooting. -/

theorem lineAux_reaches (c : Color) (x2 y2 dx dy sx sy : Int)
    (hsx : sx = 1 ∨ sx = -1) (hsy : sy = 1 ∨ sy = -1) :
    ∀ (fuel : Nat) (x y err : Int) (img : Image),
      0 ≤ sx * (x2 - x) → sx * (x2 - x) ≤ dx →
      0 ≤ sy * (y2 - y) → sy * (y2 - y) ≤ dy →
      err = (1 + dy - sy * (y2 - y)) * dx - (1 + dx - sx * (x2 - x)) * dy →
      sx * (x2 - x) + sy * (y2 - y) ≤ (fuel : Int) →
      (lineAux c x2 y2 dx dy sx sy fuel x y err img).2 = (x2, y2) := by
  have hsx2 : sx * sx = 1 := by rcases hsx with rfl | rfl <;> norm_num
  have hsy2 : sy * sy = 1 := by rcases hsy with rfl | rfl <;> norm_num
  have hrx_zero : ∀ x : Int, sx * (x2 - x) = 0 → x = x2 := by
    intro x h0
    have h1 : sx * (sx * (x2 - x)) = x2 - x := by rw [← mul_assoc, hsx2, one_mul]
    rw [h0, mul_zero] at h1
    omega
  have hry_zero : ∀ y : Int, sy * (y2 - y) = 0 → y = y2 := by
    intro y h0
    have h1 : sy * (sy * (y2 - y)) = y2 - y := by rw [← mul_assoc, hsy2, one_mul]
    rw [h0, mul_zero] at h1
    omega
  intro fuel
  induction fuel with
  | zero =>
    intro x y err img hrx0 hrxd hry0 hryd herr hfuel
    have hx : x = x2 := hrx_zero x (by omega)
    have hy : y = y2 := hry_zero y (by omega)
    subst hx
    subst hy
    simp [lineAux]
  | succ n ih =>
    intro x y err img hrx0 hrxd hry0 hryd herr hfuel
    by_cases hxy : x = x2 ∧ y = y2
    · obtain ⟨h1, h2⟩ := hxy
      subst h1
      subst h2
      simp [lineAux]
    · simp only [lineAux, if_neg hxy]
      have hxstep : sx * (x2 - (x + sx)) = sx * (x2 - x) - 1 := by
        have h : sx * (x2 - (x + sx)) = sx * (x2 - x) - sx * sx := by ring
        rw [hsx2] at h
        exact h
      have hystep : sy * (y2 - (y + sy)) = sy * (y2 - y) - 1 := by
        have h : sy * (y2 - (y + sy)) = sy * (y2 - y) - sy * sy := by ring
        rw [hsy2] at h
        exact h
      have hdx0 : 0 ≤ dx := le_trans hrx0 hrxd
      have hdy0 : 0 ≤ dy := le_trans hry0 hryd
      have hA : err * 2 > -dy → 1 ≤ sx * (x2 - x) := by
        intro hc1
        by_contra hcon
        have hrx : sx * (x2 - x) = 0 := by omega
        have hxx : x = x2 := hrx_zero x hrx
        have hry1 : 1 ≤ sy * (y2 - y) := by
          have hyne : sy * (y2 - y) ≠ 0 := fun h0 => hxy ⟨hxx, hry_zero y h0⟩
          omega
        have herr0 : err = (1 + dy - sy * (y2 - y)) * dx - (1 + dx) * dy := by
          rw [herr, hrx]
          ring
        have hmul : (1 + dy - sy * (y2 - y)) * dx ≤ dy * dx :=
          mul_le_mul_of_nonneg_right (by omega) hdx0
        have hdy1 : 1 ≤ dy := le_trans hry1 hryd
        nlinarith [hmul, herr0, hc1, hdy1]
      have hB : err * 2 < dx → 1 ≤ sy * (y2 - y) := by
        intro hc2
        by_contra hcon
        have hry : sy * (y2 - y) = 0 := by omega
        have hyy : y = y2 := hry_zero y hry
        have hrx1 : 1 ≤ sx * (x2 - x) := by
          have hxne : sx * (x2 - x) ≠ 0 := fun h0 => hxy ⟨hrx_zero x h0, hyy⟩
          omega
        have herr0 : err = (1 + dy) * dx - (1 + dx - sx * (x2 - x)) * dy := by
          rw [herr, hry]
          ring
        have hmul : (1 + dx - sx * (x2 - x)) * dy ≤ dx * dy :=
          mul_le_mul_of_nonneg_right (by omega) hdy0
        have hdx1 : 1 ≤ dx := le_trans hrx1 hrxd
        nlinarith [hmul, herr0, hc2, hdx1]
      have hC : err * 2 > -dy ∨ err * 2 < dx := by
        by_contra hcon
        push_neg at hcon
        obtain ⟨hc1, hc2⟩ := hcon
        exact hxy ⟨hrx_zero x (by omega), hry_zero y (by omega)⟩
      by_cases hc1 : err * 2 > -dy <;> by_cases hc2 : err * 2 < dx
      · simp only [if_pos hc1, if_pos hc2]
        exact ih (x + sx) (y + sy) (err - dy + dx) (img.SetSafe x y c)
          (by rw [hxstep]; have := hA hc1; omega)
          (by rw [hxstep]; omega)
          (by rw [hystep]; have := hB hc2; omega)
          (by rw [hystep]; omega)
          (by rw [hxstep, hystep, herr]; ring)
          (by rw [hxstep, hystep]; omega)
      · simp only [if_pos hc1, if_neg hc2]
        exact ih (x + sx) y (err - dy) (img.SetSafe x y c)
          (by rw [hxstep]; have := hA hc1; omega)
          (by rw [hxstep]; omega)
          hry0
          hryd
          (by rw [hxstep, herr]; ring)
          (by rw [hxstep]; omega)
      · simp only [if_neg hc1, if_pos hc2]
        exact ih x (y + sy) (err + dx) (img.SetSafe x y c)
          hrx0
          hrxd
          (by rw [hystep]; have := hB hc2; omega)
          (by rw [hystep]; omega)
          (by rw [hystep, herr]; ring)
          (by rw [hystep]; omega)
      · rcases hC with h | h <;> contradiction

/-- C3: for every pair of integer input points, the Bresenham stepping loop
of DrawLine terminates with its running point exactly at (x2,y2): the state
returned alongside the buffer (after at most delta_x + delta_y iterations,
the fuel DrawLineFull provides) is (x2,y2), for all integer inputs. -/
theorem DrawLine_reaches_endpoint (img : Image) (x1 y1 x2 y2 : Int)
    (c : Color) : (img.DrawLineFull x1 y1 x2 y2 c).2 = (x2, y2) := by
  simp only [Image.DrawLineFull]
  have hsxv : (if x1 < x2 then (1:Int) else -1) = 1 ∨
      (if x1 < x2 then (1:Int) else -1) = -1 := by
    by_cases h : x1 < x2 <;> simp [h]
  have hsyv : (if y1 < y2 then (1:Int) else -1) = 1 ∨
      (if y1 < y2 then (1:Int) else -1) = -1 := by
    by_cases h : y1 < y2 <;> simp [h]
  have hx' : (if x1 < x2 then (1:Int) else -1) * (x2 - x1) = |x2 - x1| := by
    by_cases h : x1 < x2
    · rw [if_pos h, one_mul, abs_of_nonneg (by omega)]
    · rw [if_neg h, abs_of_nonpos (by omega)]
      ring
  have hy' : (if y1 < y2 then (1:Int) else -1) * (y2 - y1) = |y2 - y1| := by
    by_cases h : y1 < y2
    · rw [if_pos h, one_mul, abs_of_nonneg (by omega)]
    · rw [if_neg h, abs_of_nonpos (by omega)]
      ring
  apply lineAux_reaches c x2 y2 |x2 - x1| |y2 - y1| _ _ hsxv hsyv
  · rw [hx']
    exact abs_nonneg _
  · rw [hx']
  · rw [hy']
    exact abs_nonneg _
  · rw [hy']
  · rw [hx', hy']
    ring
  · rw [hx', hy']
    exact Int.self_le_toNat _

/-!  Claim C1: the byte stream Save writes is exactly the claimed 54-byte
little-endian header followed by the bottom-up padded pixel rows. -/

/-- The row byte size exactly as claim C1 states it: W·3 + (W mod 4) — the
source's literal, non-standard padding formula. -/
def specRowSize (w : Nat) : Nat := w * 3 + w % 4

/-- The 54-byte header exactly as claim C1 enumerates it: signature 0x4D42,
file_size = 54 + row_size·H, reserved 0, data_offset 54, info_header_size
40, width, height, planes 1, bit_depth 24, compression 0, image_size =
row_size·H, resolutions and color counts 0, all little-endian. -/
def specHeaderBytes (w h : Nat) : List Nat :=
  le16 0x4d42 ++ le32 (54 + specRowSize w * h) ++ le32 0 ++ le32 54 ++
  le32 40 ++ le32 w ++ le32 h ++ le16 1 ++ le16 24 ++ le32 0 ++
  le32 (specRowSize w * h) ++ le32 0 ++ le32 0 ++ le32 0 ++ le32 0

/-- The pixel data exactly as claim C1 states it: rows in order y = H-1 down
to 0, each row the W pixels of that row as (blue, green, red) byte triples
followed by exactly (W mod 4) zero padding bytes. -/
def specRows (w h : Nat) (data : List Color) : List Nat :=
  (List.range h).reverse.flatMap fun y =>
    ((List.range w).flatMap fun x =>
      [(lget data (y * w + x)).b, (lget data (y * w + x)).g,
       (lget data (y * w + x)).r]) ++
    List.replicate (w % 4) 0

theorem length_flatMap_const {α β : Type} (l : List α) (f : α → List β)
    (n : Nat) (hf : ∀ a, (f a).length = n) :
    (l.flatMap f).length = l.length * n := by
  induction l with
  | nil => simp
  | cons a as ih =>
    rw [List.flatMap_cons, List.length_append, hf a, ih, List.length_cons]
    ring

/-- C1: on a sink that opens, Save emits exactly the 54 claimed header bytes
followed by the claimed bottom-up rows, and each emitted row has
row_size = W·3 + (W mod 4) bytes. -/
theorem Save_emits_spec_layout (img : Image) (wOk : Bool) :
    (img.Save ⟨true, wOk⟩).2.2 =
      specHeaderBytes img.width img.height ++
        specRows img.width img.height img.data ∧
    (specHeaderBytes img.width img.height).length = 54 ∧
    ∀ y : Nat, (img.saveRow y).length = specRowSize img.width := by
  refine ⟨?_, ?_, ?_⟩
  · show img.encodeBytes = _
    simp only [Image.encodeBytes, Image.saveHeader, Header.serialize,
      specHeaderBytes, specRows, Image.saveRow, specRowSize, headerSize]
    rw [Nat.add_comm _ 54]
  · simp [specHeaderBytes, le16, le32]
  · intro y
    have h3 := length_flatMap_const (List.range img.width)
      (fun x => let col := lget img.data (y * img.width + x);
        [col.b, col.g, col.r]) 3 (fun x => rfl)
    rw [Image.saveRow, List.length_append, List.length_replicate, h3,
      List.length_range, specRowSize, Nat.mul_comm]

/-!  Claim C5: Rotate180 (one full std::reverse) equals FlipHorizontally
followed by FlipVertically.  The flips are swap loops; each loop is
characterized elementwise below. -/

theorem lget_swapData (l : List Color) (i j : Nat) (hi : i < l.length)
    (hj : j < l.length) (k : Nat) :
    lget (swapData l i j) k =
      if k = j then lget l i else if k = i then lget l j else lget l k := by
  unfold swapData
  by_cases hkj : k = j
  · subst hkj
    rw [if_pos rfl]
    exact lget_set_eq (by rw [List.length_set]; exact hj) _
  · rw [if_neg hkj, lget_set_ne (fun hcon => hkj hcon.symm) _]
    by_cases hki : k = i
    · subst hki
      rw [if_pos rfl]
      exact lget_set_eq hi _
    · rw [if_neg hki, lget_set_ne (fun hcon => hki hcon.symm) _]

/-- Elementwise effect of the first m swaps of an in-place row reversal at
offset o: positions o..o+m-1 and o+w-m..o+w-1 hold the mirrored entries,
everything else is untouched. -/
theorem rowRevAux (w o : Nat) :
    ∀ (m : Nat) (d : List Color), m ≤ w / 2 → o + w ≤ d.length → ∀ (k : Nat),
      lget ((List.range m).foldl
        (fun d2 x => swapData d2 (o + x) (o + (w - 1 - x))) d) k =
      if (o ≤ k ∧ k < o + m) ∨ (o + w - m ≤ k ∧ k < o + w)
      then lget d (2 * o + w - 1 - k) else lget d k := by
  intro m
  induction m with
  | zero =>
    intro d hm hlen k
    simp only [List.range_zero, List.foldl_nil]
    rw [if_neg (by omega)]
  | succ m ih =>
    intro d hm hlen k
    simp only [List.range_succ, List.foldl_append, List.foldl_cons, List.foldl_nil]
    have hm' : m ≤ w / 2 := by omega
    have hlenD : ((List.range m).foldl
        (fun d2 x => swapData d2 (o + x) (o + (w - 1 - x))) d).length =
        d.length :=
      foldl_length_invariant _ (fun d2 x => length_swapData _ _ _) _ _
    have hi : o + m < d.length := by omega
    have hj : o + (w - 1 - m) < d.length := by omega
    rw [lget_swapData _ _ _ (by rw [hlenD]; exact hi) (by rw [hlenD]; exact hj) k]
    by_cases hk1 : k = o + (w - 1 - m)
    · subst hk1
      rw [if_pos rfl, ih d hm' hlen (o + m), if_neg (by omega), if_pos (by omega)]
      congr 1
      omega
    · rw [if_neg hk1]
      by_cases hk2 : k = o + m
      · subst hk2
        rw [if_pos rfl, ih d hm' hlen (o + (w - 1 - m)), if_neg (by omega),
          if_pos (by omega)]
        congr 1
        omega
      · rw [if_neg hk2, ih d hm' hlen k]
        by_cases hk3 : (o ≤ k ∧ k < o + m) ∨ (o + w - m ≤ k ∧ k < o + w)
        · rw [if_pos hk3, if_pos (by omega)]
        · rw [if_neg hk3, if_neg (by omega)]

/-- The complete swap loop of one row reverses it: within the row the read
mirrors, outside the row nothing changes (the odd middle entry mirrors onto
itself). -/
theorem rowRev_full (w o : Nat) (d : List Color) (hlen : o + w ≤ d.length)
    (k : Nat) :
    lget ((List.range (w / 2)).foldl
      (fun d2 x => swapData d2 (o + x) (o + (w - 1 - x))) d) k =
      if o ≤ k ∧ k < o + w then lget d (2 * o + w - 1 - k) else lget d k := by
  rw [rowRevAux w o (w / 2) d le_rfl hlen k]
  by_cases hk : o ≤ k ∧ k < o + w
  · by_cases hk2 : (o ≤ k ∧ k < o + w / 2) ∨ (o + w - w / 2 ≤ k ∧ k < o + w)
    · rw [if_pos hk2, if_pos hk]
    · rw [if_neg hk2, if_pos hk]
      congr 1
      omega
  · rw [if_neg (by omega), if_neg hk]

/-- Elementwise effect of FlipHorizontally's outer loop after its first n
rows: within those rows the column reads back mirrored, below them nothing
changes. -/
theorem flipHAux (w : Nat) :
    ∀ (n : Nat) (d : List Color), n * w ≤ d.length → ∀ (yy t : Nat), t < w →
      lget ((List.range n).foldl
        (fun d2 y => (List.range (w / 2)).foldl
          (fun d3 x => swapData d3 (y * w + x) (y * w + (w - 1 - x))) d2) d)
        (yy * w + t) =
      if yy < n then lget d (yy * w + (w - 1 - t))
      else lget d (yy * w + t) := by
  intro n
  induction n with
  | zero =>
    intro d hlen yy t ht
    simp only [List.range_zero, List.foldl_nil]
    rw [if_neg (by omega)]
  | succ n ih =>
    intro d hlen yy t ht
    simp only [List.range_succ, List.foldl_append, List.foldl_cons, List.foldl_nil]
    have hrow : (n + 1) * w = n * w + w := by ring
    have hlen' : n * w ≤ d.length := by omega
    have hlenD : ((List.range n).foldl
        (fun d2 y => (List.range (w / 2)).foldl
          (fun d3 x => swapData d3 (y * w + x) (y * w + (w - 1 - x))) d2)
        d).length = d.length :=
      foldl_length_invariant _
        (fun d2 y => foldl_length_invariant _
          (fun d3 x => length_swapData _ _ _) _ d2) _ _
    rw [rowRev_full w (n * w) _ (by rw [hlenD]; omega)]
    rcases Nat.lt_trichotomy yy n with hlt | heq | hgt
    · have hpos : yy * w + t < n * w := index_lt ht hlt
      rw [if_neg (by omega), ih d hlen' yy t ht, if_pos hlt, if_pos (by omega)]
    · subst heq
      rw [if_pos (by omega)]
      have hmir : 2 * (yy * w) + w - 1 - (yy * w + t) = yy * w + (w - 1 - t) := by
        omega
      rw [hmir, ih d hlen' yy (w - 1 - t) (by omega), if_neg (by omega),
        if_pos (by omega)]
    · have hpos : (n + 1) * w ≤ yy * w := Nat.mul_le_mul_right w (by omega)
      rw [if_neg (by omega), ih d hlen' yy t ht, if_neg (by omega),
        if_neg (by omega)]

/-- Elementwise reading of FlipHorizontally: every in-range coordinate reads
back the entry mirrored within its row. -/
theorem FlipHorizontally_lget (img : Image)
    (hlen : img.data.length = img.width * img.height) (yy t : Nat)
    (hy : yy < img.height) (ht : t < img.width) :
    lget (img.FlipHorizontally).data (yy * img.width + t) =
      lget img.data (yy * img.width + (img.width - 1 - t)) := by
  simp only [Image.FlipHorizontally]
  rw [flipHAux img.width img.height img.data
    (le_of_eq (by rw [hlen, Nat.mul_comm])) yy t ht, if_pos hy]

/-- Elementwise effect of the first m swaps exchanging the rows at offsets
o1 and o2. -/
theorem rowSwapAux (w o1 o2 : Nat) (hsep : o1 + w ≤ o2) :
    ∀ (m : Nat) (d : List Color), m ≤ w → o2 + w ≤ d.length → ∀ (k : Nat),
      lget ((List.range m).foldl
        (fun d2 x => swapData d2 (o1 + x) (o2 + x)) d) k =
      if o1 ≤ k ∧ k < o1 + m then lget d (o2 + (k - o1))
      else if o2 ≤ k ∧ k < o2 + m then lget d (o1 + (k - o2))
      else lget d k := by
  intro m
  induction m with
  | zero =>
    intro d hm hlen k
    simp only [List.range_zero, List.foldl_nil]
    rw [if_neg (by omega), if_neg (by omega)]
  | succ m ih =>
    intro d hm hlen k
    simp only [List.range_succ, List.foldl_append, List.foldl_cons, List.foldl_nil]
    have hm' : m ≤ w := by omega
    have hlenD : ((List.range m).foldl
        (fun d2 x => swapData d2 (o1 + x) (o2 + x)) d).length = d.length :=
      foldl_length_invariant _ (fun d2 x => length_swapData _ _ _) _ _
    have hi : o1 + m < d.length := by omega
    have hj : o2 + m < d.length := by omega
    rw [lget_swapData _ _ _ (by rw [hlenD]; exact hi) (by rw [hlenD]; exact hj) k]
    by_cases hk1 : k = o2 + m
    · subst hk1
      rw [if_pos rfl, ih d hm' hlen (o1 + m), if_neg (by omega), if_neg (by omega),
        if_neg (by omega), if_pos (by omega)]
      congr 1
      omega
    · rw [if_neg hk1]
      by_cases hk2 : k = o1 + m
      · subst hk2
        rw [if_pos rfl, ih d hm' hlen (o2 + m), if_neg (by omega), if_neg (by omega),
          if_pos (by omega)]
        congr 1
        omega
      · rw [if_neg hk2, ih d hm' hlen k]
        by_cases hk3 : o1 ≤ k ∧ k < o1 + m
        · rw [if_pos hk3, if_pos (by omega)]
        · rw [if_neg hk3]
          by_cases hk4 : o2 ≤ k ∧ k < o2 + m
          · rw [if_pos hk4, if_neg (by omega), if_pos (by omega)]
          · rw [if_neg hk4, if_neg (by omega), if_neg (by omega)]

/-- Elementwise effect of FlipVertically's outer loop after its first n
iterations: the first n rows and the last n rows read back vertically
mirrored, the middle band is untouched. -/
theorem flipVAux (w h : Nat) :
    ∀ (n : Nat) (d : List Color), n ≤ h / 2 → h * w ≤ d.length →
      ∀ (yy t : Nat), yy < h → t < w →
      lget ((List.range n).foldl
        (fun d2 y => (List.range w).foldl
          (fun d3 x => swapData d3 (y * w + x) ((h - 1 - y) * w + x)) d2) d)
        (yy * w + t) =
      if yy < n ∨ h - n ≤ yy then lget d ((h - 1 - yy) * w + t)
      else lget d (yy * w + t) := by
  intro n
  induction n with
  | zero =>
    intro d hn hlen yy t hy ht
    simp only [List.range_zero, List.foldl_nil]
    rw [if_neg (by omega)]
  | succ n ih =>
    intro d hn hlen yy t hy ht
    simp only [List.range_succ, List.foldl_append, List.foldl_cons, List.foldl_nil]
    have hn' : n ≤ h / 2 := by omega
    have hni : n + 1 ≤ h - 1 - n := by omega
    have hsep : n * w + w ≤ (h - 1 - n) * w := by
      have h1 : (n + 1) * w ≤ (h - 1 - n) * w := Nat.mul_le_mul_right w hni
      have h2 : (n + 1) * w = n * w + w := by ring
      omega
    have hlen2 : (h - 1 - n) * w + w ≤ d.length := by
      have h1 : (h - 1 - n + 1) * w ≤ h * w := Nat.mul_le_mul_right w (by omega)
      have h2 : (h - 1 - n + 1) * w = (h - 1 - n) * w + w := by ring
      omega
    have hlenD : ((List.range n).foldl
        (fun d2 y => (List.range w).foldl
          (fun d3 x => swapData d3 (y * w + x) ((h - 1 - y) * w + x)) d2)
        d).length = d.length :=
      foldl_length_invariant _
        (fun d2 y => foldl_length_invariant _
          (fun d3 x => length_swapData _ _ _) _ d2) _ _
    rw [rowSwapAux w (n * w) ((h - 1 - n) * w) hsep w _ le_rfl
      (by rw [hlenD]; omega)]
    rcases Nat.lt_trichotomy yy n with hlt | heq | hgt
    · -- a row already handled in an earlier iteration
      have hp1 : yy * w + t < n * w := index_lt ht hlt
      rw [if_neg (by omega), if_neg (by omega), ih d hn' hlen yy t hy ht,
        if_pos (by omega), if_pos (by omega)]
    · subst heq
      rw [if_pos (by omega)]
      have hidx : (h - 1 - yy) * w + (yy * w + t - yy * w) = (h - 1 - yy) * w + t := by
        omega
      rw [hidx, ih d hn' hlen (h - 1 - yy) t (by omega) ht, if_neg (by omega),
        if_pos (by omega)]
    · rcases Nat.lt_trichotomy yy (h - 1 - n) with hlt2 | heq2 | hgt2
      · -- strictly between the swapped rows
        have hp1 : (n + 1) * w ≤ yy * w := Nat.mul_le_mul_right w (by omega)
        have hp2 : yy * w + t < (h - 1 - n) * w := index_lt ht hlt2
        have hrow : (n + 1) * w = n * w + w := by ring
        rw [if_neg (by omega), if_neg (by omega), ih d hn' hlen yy t hy ht,
          if_neg (by omega), if_neg (by omega)]
      · subst heq2
        rw [if_neg (by omega), if_pos (by omega)]
        have hidx : n * w + ((h - 1 - n) * w + t - (h - 1 - n) * w) = n * w + t := by
          omega
        rw [hidx, ih d hn' hlen n t (by omega) ht, if_neg (by omega),
          if_pos (by omega)]
        congr 1
        have hback : h - 1 - (h - 1 - n) = n := by omega
        rw [hback]
      · -- a row below every swapped row
        have hp1 : (h - 1 - n + 1) * w ≤ yy * w := Nat.mul_le_mul_right w (by omega)
        have hrow : (h - 1 - n + 1) * w = (h - 1 - n) * w + w := by ring
        have hp2 : (n + 1) * w ≤ yy * w :=
          Nat.mul_le_mul_right w (by omega)
        have hrow2 : (n + 1) * w = n * w + w := by ring
        rw [if_neg (by omega), if_neg (by omega), ih d hn' hlen yy t hy ht,
          if_pos (by omega), if_pos (by omega)]

/-- Elementwise reading of FlipVertically: every in-range coordinate reads
back the entry mirrored across the horizontal middle. -/
theorem FlipVertically_lget (img : Image)
    (hlen : img.data.length = img.width * img.height) (yy t : Nat)
    (hy : yy < img.height) (ht : t < img.width) :
    lget (img.FlipVertically).data (yy * img.width + t) =
      lget img.data ((img.height - 1 - yy) * img.width + t) := by
  simp only [Image.FlipVertically]
  rw [flipVAux img.width img.height (img.height / 2) img.data le_rfl
    (le_of_eq (by rw [hlen, Nat.mul_comm])) yy t hy ht]
  by_cases hc : yy < img.height / 2 ∨ img.height - img.height / 2 ≤ yy
  · rw [if_pos hc]
  · rw [if_neg hc]
    have hmid : img.height - 1 - yy = yy := by omega
    rw [hmid]

theorem lget_eq_getElem (l : List Color) (k : Nat) (hk : k < l.length) :
    lget l k = l[k] := by
  unfold lget
  rw [List.getElem?_eq_getElem hk]
  rfl

theorem lget_reverse (l : List Color) (k : Nat) (hk : k < l.length) :
    lget l.reverse k = lget l (l.length - 1 - k) := by
  unfold lget
  rw [List.getElem?_reverse hk]

/-- C5: Rotate180 — a single reversal of the linear pixel sequence — yields
exactly the buffer produced by FlipHorizontally followed by
FlipVertically. -/
theorem Rotate180_eq_flipH_then_flipV (img : Image)
    (hlen : img.data.length = img.width * img.height) :
    img.Rotate180 = (img.FlipHorizontally).FlipVertically := by
  have hwF : (img.FlipHorizontally).width = img.width := rfl
  have hhF : (img.FlipHorizontally).height = img.height := rfl
  have hlenF : (img.FlipHorizontally).data.length = img.data.length :=
    (sameDims_FlipHorizontally img).2.2
  have hlenV : ((img.FlipHorizontally).FlipVertically).data.length =
      img.data.length :=
    ((sameDims_FlipVertically (img.FlipHorizontally)).2.2).trans hlenF
  have hdata : img.data.reverse = ((img.FlipHorizontally).FlipVertically).data := by
    apply List.ext_getElem
    · rw [List.length_reverse, hlenV]
    · intro k hk1 hk2
      rw [← lget_eq_getElem _ _ hk1, ← lget_eq_getElem _ _ hk2]
      have hkd : k < img.data.length := by
        rw [List.length_reverse] at hk1
        exact hk1
      have hkwh : k < img.width * img.height := by
        rw [← hlen]
        exact hkd
      have hw0 : 0 < img.width := by
        rcases Nat.eq_zero_or_pos img.width with h0 | h0
        · rw [h0, Nat.zero_mul] at hkwh
          omega
        · exact h0
      have hh0 : 0 < img.height := by
        rcases Nat.eq_zero_or_pos img.height with h0 | h0
        · rw [h0, Nat.mul_zero] at hkwh
          omega
        · exact h0
      have hdm := Nat.div_add_mod k img.width
      obtain ⟨q, hq⟩ : ∃ q, q = k / img.width := ⟨_, rfl⟩
      obtain ⟨r, hr⟩ : ∃ r, r = k % img.width := ⟨_, rfl⟩
      rw [← hq, ← hr] at hdm
      have ht : r < img.width := by
        rw [hr]
        exact Nat.mod_lt k hw0
      have hmc : img.width * q = q * img.width := Nat.mul_comm _ _
      have hdec : q * img.width + r = k := by omega
      have hyy : q < img.height := by
        by_contra hcon
        push_neg at hcon
        have hge : img.height * img.width ≤ q * img.width :=
          Nat.mul_le_mul_right img.width hcon
        have hcm : img.height * img.width = img.width * img.height :=
          Nat.mul_comm _ _
        omega
      have hlenFH : (img.FlipHorizontally).data.length =
          (img.FlipHorizontally).width * (img.FlipHorizontally).height := by
        rw [hlenF, hwF, hhF, hlen]
      have hstepV := FlipVertically_lget (img.FlipHorizontally) hlenFH q r
        (by rw [hhF]; exact hyy) (by rw [hwF]; exact ht)
      rw [hwF, hhF] at hstepV
      rw [hdec] at hstepV
      have hstepH := FlipHorizontally_lget img hlen
        (img.height - 1 - q) r (by omega) ht
      have hrev := lget_reverse img.data k hkd
      rw [hlen] at hrev
      rw [hrev, hstepV, hstepH]
      congr 1
      have e1 : q * img.width + (img.height - 1 - q) * img.width =
          (img.height - 1) * img.width := by
        rw [← Nat.add_mul]
        congr 1
        omega
      have e2 : (img.height - 1) * img.width + img.width =
          img.height * img.width := by
        have hh1 : img.height - 1 + 1 = img.height := by omega
        calc (img.height - 1) * img.width + img.width
            = (img.height - 1 + 1) * img.width := by ring
          _ = img.height * img.width := by rw [hh1]
      have e3 : img.height * img.width = img.width * img.height :=
        Nat.mul_comm _ _
      omega
  have hfinal : (img.FlipHorizontally).FlipVertically =
      Image.mk img.width img.height
        ((img.FlipHorizontally).FlipVertically).data := rfl
  rw [hfinal, ← hdata]
  rfl

/-- Witness for C5 on a concrete 2×3 buffer with six distinct pixels. -/
theorem Rotate180_eq_flipH_then_flipV_witness :
    (Image.mk 2 3 [⟨1,0,0⟩, ⟨2,0,0⟩, ⟨3,0,0⟩, ⟨4,0,0⟩, ⟨5,0,0⟩, ⟨6,0,0⟩]).Rotate180 =
      ((Image.mk 2 3 [⟨1,0,0⟩, ⟨2,0,0⟩, ⟨3,0,0⟩, ⟨4,0,0⟩, ⟨5,0,0⟩,
        ⟨6,0,0⟩]).FlipHorizontally).FlipVertically :=
  Rotate180_eq_flipH_then_flipV _ (by decide)

/-- Witness for C6 at the claim's concrete instance (0,0,3,3) on a 5×5
buffer, read at the far corner (3,3): on the outline it is plotted, in the
filled block it is not. -/
theorem DrawRectangle_outline_vs_filled_witness :
    ((Image.ofSize 5 5).DrawRectangleLine 0 0 3 3 Color.RED).get 3 3 =
      (if onOutline 0 0 3 3 3 3 ∧ (Image.ofSize 5 5).inBounds 3 3 then Color.RED
       else (Image.ofSize 5 5).get 3 3) ∧
    ((Image.ofSize 5 5).DrawRectangle 0 0 3 3 Color.RED).get 3 3 =
      (if inFilledRect 0 0 3 3 3 3 ∧ (Image.ofSize 5 5).inBounds 3 3
       then Color.RED else (Image.ofSize 5 5).get 3 3) :=
  DrawRectangle_outline_vs_filled (Image.ofSize 5 5) 0 0 3 3 Color.RED
    (by decide) (by decide) (by decide) 3 3

end Bmpr
